import Mathlib

/-!
Shallow embedding of the scheduling / deadlock-avoidance core of the
`2024a-rcore-Foreverhighness` kernel, together with proofs that settle the
specification claims about it.

Conventions of the embedding:
* `BTreeMap<K, V>` values are modelled as key-sorted association lists
  `List (Nat × V)`; `btreeGet` is `BTreeMap::get`, `setKey` is the in-place
  mutation through `get_mut`, and `entryOrInsert` is
  `entry(k).or_default()` followed by a mutation of the entry.
* machine integers (`usize`) become `Nat`; the points where the Rust code
  can abort (a failed `unwrap`, a failed `assert!`, an overflow-checked
  subtraction below zero, or a `BTreeMap` index on a missing key) are made
  explicit with `Option`/`Except`, `none` / `Except.error ()` standing for
  the abort.
* the `security_check` loop is written with explicit fuel; the fuel
  `finish.length + 1` is provably enough because every iteration marks one
  more task finished (`countFalse_setKey_true` / `securityLoop_spec`
  below), so the fuel never runs out on the branch the Rust loop takes.
-/

set_option maxHeartbeats 1000000

/-- Resource identifier (`type ResourceIdentifier = usize`); identifiers
and counts are all `Nat` in this embedding (`type NumberOfResource = usize`,
`type TaskIdentifier = usize`). -/
abbrev ResourceIdentifier := Nat

/-- Per-task, per-resource state (`struct TaskResourcesState`). -/
structure TaskResourcesState where
  allocation : Nat
  need : Nat
deriving DecidableEq, Repr

instance : Inhabited TaskResourcesState := ⟨⟨0, 0⟩⟩

/-- `BTreeMap::get`: the value stored at key `k`, if any (first occurrence). -/
def btreeGet {α : Type} (m : List (Nat × α)) (k : Nat) : Option α :=
  match m with
  | [] => none
  | (k', v) :: rest => if k = k' then some v else btreeGet rest k

/-- Mutation through `BTreeMap::get_mut`: replace the value at an existing
key `k`, keeping the map's shape; a missing key leaves the list unchanged
(all call sites first establish that the key is present). -/
def setKey {α : Type} (m : List (Nat × α)) (k : Nat) (v : α) : List (Nat × α) :=
  match m with
  | [] => []
  | (k', v') :: rest => if k = k' then (k', v) :: rest else (k', v') :: setKey rest k v

/-- `BTreeMap::entry(k).or_default()` followed by applying `f` to the entry:
modifies the value at `k` when present, otherwise inserts `f d` at `k`'s
sorted position. -/
def entryOrInsert {α : Type} (m : List (Nat × α)) (k : Nat) (d : α) (f : α → α) :
    List (Nat × α) :=
  match m with
  | [] => [(k, f d)]
  | (k', v) :: rest =>
    if k < k' then (k, f d) :: (k', v) :: rest
    else if k = k' then (k', f v) :: rest
    else (k', v) :: entryOrInsert rest k d f

/-- Banker's Algorithm request result (`enum RequestResult`). -/
inductive RequestResult where
  /-- Potential deadlock. -/
  | Deadlock
  /-- Need wait. -/
  | Wait
  /-- Allocate resources. -/
  | Success
deriving DecidableEq, Repr

/-- State of `struct BankersAlgorithm`: the `available` map and the
per-task `allocation`/`need` maps. -/
structure BankersAlgorithm where
  available : List (Nat × Nat)
  task_state : List (Nat × List (Nat × TaskResourcesState))
deriving DecidableEq, Repr

/-- `BankersAlgorithm::default()`: both maps empty. -/
def BankersAlgorithm.default : BankersAlgorithm := ⟨[], []⟩

/-- `BankersAlgorithm::add_resource`: `*self.available.entry(resource).or_default() += n`. -/
def BankersAlgorithm.add_resource (s : BankersAlgorithm) (resource : Nat)
    (n : Nat) : BankersAlgorithm :=
  { s with available := entryOrInsert s.available resource 0 (· + n) }

/-- `BankersAlgorithm::record`:
`self.task_state.entry(task).or_default().entry(resource).or_default().need += n`. -/
def BankersAlgorithm.record (s : BankersAlgorithm) (task : Nat)
    (resource : Nat) (n : Nat) : BankersAlgorithm :=
  { s with
    task_state :=
      entryOrInsert s.task_state task []
        (fun rs => entryOrInsert rs resource ⟨0, 0⟩
          (fun st => { st with need := st.need + n })) }

/-- One task's eligibility test inside `security_check`:
`res_state.iter().all(|(res, state)| state.need <= work[res])`.
Indexing `work[res]` on a missing key is a kernel abort (`Except.error`). -/
def needsMet (work : List (Nat × Nat))
    (rs : List (Nat × TaskResourcesState)) : Except Unit Bool :=
  match rs with
  | [] => .ok true
  | (r, st) :: rest =>
    match btreeGet work r with
    | none => .error ()
    | some w => if st.need ≤ w then needsMet work rest else .ok false

/-- The `find` inside `security_check`:
first task (in map order) with `!finish[task]` and all needs met.
`finish[task]` on a missing key is a kernel abort. -/
def findEligible (work : List (Nat × Nat))
    (finish : List (Nat × Bool))
    (tasks : List (Nat × List (Nat × TaskResourcesState))) :
    Except Unit (Option (Nat × List (Nat × TaskResourcesState))) :=
  match tasks with
  | [] => .ok none
  | (t, rs) :: rest =>
    match btreeGet finish t with
    | none => .error ()
    | some fin =>
      if fin then findEligible work finish rest
      else
        match needsMet work rs with
        | .error e => .error e
        | .ok true => .ok (some (t, rs))
        | .ok false => findEligible work finish rest

/-- The work update inside `security_check`:
`for (res, state) in res_state { *work.get_mut(res).unwrap() += state.allocation }`. -/
def addAllocs (work : List (Nat × Nat))
    (rs : List (Nat × TaskResourcesState)) :
    Except Unit (List (Nat × Nat)) :=
  match rs with
  | [] => .ok work
  | (r, st) :: rest =>
    match btreeGet work r with
    | none => .error ()
    | some w => addAllocs (setKey work r (w + st.allocation)) rest

/-- The `loop` of `security_check`, with explicit fuel (the Rust loop
terminates because every iteration flips one `finish` entry to `true`;
`securityCheck` passes enough fuel for that). -/
def securityLoop
    (tasks : List (Nat × List (Nat × TaskResourcesState)))
    (fuel : Nat) (work : List (Nat × Nat))
    (finish : List (Nat × Bool)) : Except Unit Bool :=
  match fuel with
  | 0 => .error ()
  | fuel + 1 =>
    match findEligible work finish tasks with
    | .error e => .error e
    | .ok none => .ok (finish.all (·.2))
    | .ok (some (t, rs)) =>
      match addAllocs work rs with
      | .error e => .error e
      | .ok work' =>
        match btreeGet finish t with
        | none => .error ()
        | some _ => securityLoop tasks fuel work' (setKey finish t true)

/-- `BankersAlgorithm::security_check`: `work` starts at `available`,
`finish` starts all-`false` over the recorded tasks. -/
def BankersAlgorithm.security_check (s : BankersAlgorithm) : Except Unit Bool :=
  let work := s.available
  let finish := s.task_state.map (fun p => (p.1, false))
  securityLoop s.task_state (finish.length + 1) work finish

/-- `BankersAlgorithm::request`: record the additional need, then run the
safety check; `Deadlock` when unsafe, `Success` otherwise. A panic inside
`security_check` propagates (`none`). -/
def BankersAlgorithm.request (s : BankersAlgorithm) (task : Nat)
    (resource : Nat) (n : Nat) :
    Option (RequestResult × BankersAlgorithm) :=
  let s' := s.record task resource n
  match s'.security_check with
  | .error _ => none
  | .ok false => some (.Deadlock, s')
  | .ok true => some (.Success, s')

/-- `BankersAlgorithm::acquire`: `unwrap`s of the `available` and task
entries and the two `assert!`s are kernel aborts (`none`). -/
def BankersAlgorithm.acquire (s : BankersAlgorithm) (task : Nat)
    (resource : Nat) (n : Nat) : Option BankersAlgorithm :=
  match btreeGet s.available resource with
  | none => none
  | some avail =>
    match btreeGet s.task_state task with
    | none => none
    | some rs =>
      match btreeGet rs resource with
      | none => none
      | some st =>
        if n ≤ avail ∧ n ≤ st.need then
          some { available := setKey s.available resource (avail - n),
                 task_state := setKey s.task_state task
                   (setKey rs resource ⟨st.allocation + n, st.need - n⟩) }
        else none

/-- `BankersAlgorithm::release`: `unwrap`s of the entries are kernel
aborts; `task.allocation -= n` below zero is an overflow abort. -/
def BankersAlgorithm.release (s : BankersAlgorithm) (task : Nat)
    (resource : Nat) (n : Nat) : Option BankersAlgorithm :=
  match btreeGet s.available resource with
  | none => none
  | some avail =>
    match btreeGet s.task_state task with
    | none => none
    | some rs =>
      match btreeGet rs resource with
      | none => none
      | some st =>
        if n ≤ st.allocation then
          some { available := setKey s.available resource (avail + n),
                 task_state := setKey s.task_state task
                   (setKey rs resource ⟨st.allocation - n, st.need⟩) }
        else none

/-- The declared remaining need of `task` for `resource` (0 when absent). -/
def needOf (s : BankersAlgorithm) (task : Nat) (resource : Nat) : Nat :=
  ((btreeGet ((btreeGet s.task_state task).getD []) resource).getD ⟨0, 0⟩).need

/-- The current allocation of `task` for `resource` (0 when absent). -/
def allocOf (s : BankersAlgorithm) (task : Nat) (resource : Nat) : Nat :=
  ((btreeGet ((btreeGet s.task_state task).getD []) resource).getD ⟨0, 0⟩).allocation



/-- Value view of a resource map: the stored count, `0` when absent. -/
def lookupD (m : List (Nat × Nat)) (k : Nat) : Nat := (btreeGet m k).getD 0

/-- Total allocation that the entries of `rs` record for resource `r`. -/
def allocSum (rs : List (Nat × TaskResourcesState)) (r : Nat) : Nat :=
  (rs.map (fun p => if p.1 = r then p.2.allocation else 0)).sum

/-- Simulated completion of one task: its allocation is returned to `work`. -/
def addWork (w : Nat → Nat) (rs : List (Nat × TaskResourcesState)) :
    Nat → Nat :=
  fun r => w r + allocSum rs r

/-- Component-wise comparison of a task's remaining need against `work`. -/
def NeedsLE (w : Nat → Nat) (rs : List (Nat × TaskResourcesState)) : Prop :=
  ∀ p ∈ rs, p.2.need ≤ w p.1

/-- Safety in the sense of the specification's simulation: starting from
`work = w` with every listed task unfinished, all tasks can be finished by
repeatedly selecting any task whose remaining need is component-wise at
most `work` and returning its allocation to `work`. -/
inductive SpecSafe :
    (Nat → Nat) → List (Nat × List (Nat × TaskResourcesState)) →
    Prop where
  | nil (w : Nat → Nat) : SpecSafe w []
  | step {w : Nat → Nat}
      {pending : List (Nat × List (Nat × TaskResourcesState))}
      (t : Nat) (rs : List (Nat × TaskResourcesState))
      (hmem : (t, rs) ∈ pending) (hle : NeedsLE w rs)
      (hrest : SpecSafe (addWork w rs) (pending.erase (t, rs))) : SpecSafe w pending

/-- Keys of an association list. -/
def keysOf {α : Type} (m : List (Nat × α)) : List Nat := m.map Prod.fst

/-- Representation invariant of `BTreeMap`: strictly increasing keys. -/
abbrev SortedKeys {α : Type} (m : List (Nat × α)) : Prop := (keysOf m).Pairwise (· < ·)

/-- Whether the `finish` map marks task `t` as still unfinished. -/
def isUnfinished (finish : List (Nat × Bool)) (t : Nat) : Bool :=
  match btreeGet finish t with
  | some b => !b
  | none => false

/-- The tasks the `finish` map still marks unfinished, in map order. -/
def pendingOf
    (tasks : List (Nat × List (Nat × TaskResourcesState)))
    (finish : List (Nat × Bool)) :
    List (Nat × List (Nat × TaskResourcesState)) :=
  tasks.filter (fun p => isUnfinished finish p.1)

/-- Number of entries of `finish` still `false` (the loop's termination measure). -/
def countFalse (finish : List (Nat × Bool)) : Nat :=
  (finish.filter (fun p => !p.2)).length

/-- Resources-domain condition for a banker state: every resource recorded
for some task is present in the `available` map.  Every state reached
through `add_resource`/`request`/`acquire` for resources registered before
use satisfies it; `security_check` aborts the kernel outside it. -/
abbrev ResourcesRegistered (s : BankersAlgorithm) : Prop :=
  ∀ p ∈ s.task_state, ∀ q ∈ p.2, q.1 ∈ keysOf s.available

theorem btreeGet_mem {α : Type} {m : List (Nat × α)} {k : Nat} {v : α}
    (h : btreeGet m k = some v) : (k, v) ∈ m := by
  induction m with
  | nil => simp [btreeGet] at h
  | cons hd tl ih =>
    obtain ⟨k', v'⟩ := hd
    simp only [btreeGet] at h
    split at h
    · simp_all
    · simp [ih h]

theorem btreeGet_isSome_iff {α : Type} {m : List (Nat × α)} {k : Nat} :
    (btreeGet m k).isSome ↔ k ∈ keysOf m := by
  induction m with
  | nil => simp [btreeGet, keysOf]
  | cons hd tl ih =>
    obtain ⟨k', v'⟩ := hd
    by_cases h : k = k'
    · subst h
      simp [btreeGet, keysOf]
    · simp [btreeGet, keysOf, h, ih]

theorem btreeGet_eq_none_of_lt {α : Type} {m : List (Nat × α)} {k : Nat}
    (h : ∀ y ∈ keysOf m, k < y) : btreeGet m k = none := by
  induction m with
  | nil => rfl
  | cons hd tl ih =>
    obtain ⟨k', v'⟩ := hd
    have hne : k ≠ k' := by
      have := h k' (by simp [keysOf])
      omega
    simp only [btreeGet, if_neg hne]
    exact ih (fun y hy => h y (by simp [keysOf] at hy ⊢; exact Or.inr hy))

theorem keysOf_setKey {α : Type} (m : List (Nat × α)) (k : Nat) (v : α) :
    keysOf (setKey m k v) = keysOf m := by
  induction m with
  | nil => rfl
  | cons hd tl ih =>
    obtain ⟨k', v'⟩ := hd
    simp only [setKey]
    split <;> simp_all [keysOf]

theorem btreeGet_setKey_self {α : Type} {m : List (Nat × α)} {k : Nat} (v : α)
    (h : k ∈ keysOf m) : btreeGet (setKey m k v) k = some v := by
  induction m with
  | nil => simp [keysOf] at h
  | cons hd tl ih =>
    obtain ⟨k', v'⟩ := hd
    simp only [setKey]
    split
    · simp_all [btreeGet]
    · simp only [btreeGet, if_neg (by assumption)]
      exact ih (by simp_all [keysOf])

theorem btreeGet_setKey_ne {α : Type} {m : List (Nat × α)} {k k' : Nat} (v : α)
    (h : k' ≠ k) : btreeGet (setKey m k v) k' = btreeGet m k' := by
  induction m with
  | nil => rfl
  | cons hd tl ih =>
    obtain ⟨k₀, v₀⟩ := hd
    simp only [setKey]
    split
    · subst_vars
      simp [btreeGet, if_neg h]
    · simp only [btreeGet]
      split <;> simp_all

theorem btreeGet_entryOrInsert_self {α : Type} {m : List (Nat × α)} (k : Nat) (d : α)
    (f : α → α) (hs : SortedKeys m) :
    btreeGet (entryOrInsert m k d f) k = some (f ((btreeGet m k).getD d)) := by
  induction m with
  | nil => simp [entryOrInsert, btreeGet]
  | cons hd tl ih =>
    obtain ⟨k', v'⟩ := hd
    simp only [SortedKeys, keysOf, List.map_cons, List.pairwise_cons] at hs
    obtain ⟨hlt, htl⟩ := hs
    simp only [entryOrInsert]
    split
    · rename_i hk
      have hnone : btreeGet tl k = none :=
        btreeGet_eq_none_of_lt (fun y hy => lt_trans hk (hlt y (by simpa [keysOf] using hy)))
      simp [btreeGet, if_neg (by omega : ¬ k = k'), hnone]
    · split
      · simp_all [btreeGet]
      · have hne : k ≠ k' := by omega
        simp [btreeGet, if_neg hne, ih htl]

theorem btreeGet_entryOrInsert_ne {α : Type} (m : List (Nat × α)) {k k' : Nat} (d : α)
    (f : α → α) (h : k' ≠ k) :
    btreeGet (entryOrInsert m k d f) k' = btreeGet m k' := by
  induction m with
  | nil => simp [entryOrInsert, btreeGet, if_neg h]
  | cons hd tl ih =>
    obtain ⟨k₀, v₀⟩ := hd
    simp only [entryOrInsert]
    split
    · simp [btreeGet, if_neg h]
    · split
      · subst_vars
        simp [btreeGet, if_neg h]
      · simp only [btreeGet]
        split <;> simp_all

/-- Allocation recorded in one task's resource map for `r` (0 when absent). -/
def allocEntry (rs : List (Nat × TaskResourcesState))
    (r : Nat) : Nat :=
  ((btreeGet rs r).getD ⟨0, 0⟩).allocation

/-- Conserved quantity for resource `r`: `available[r] + Σ allocation[r]`
over all recorded tasks. -/
def totalOf (s : BankersAlgorithm) (r : Nat) : Nat :=
  lookupD s.available r + (s.task_state.map (fun p => allocEntry p.2 r)).sum

/-- Modulus of the wrapping `usize` stride counter (`Wrapping<usize>`). -/
def USIZE_MOD : Nat := 2 ^ 64

/-- `<usize as BigStride<usize>>::BIG_STRIDE = isize::MAX as usize`. -/
def BIG_STRIDE : Nat := 2 ^ 63 - 1

/-- `BIG_STRIDE_DIV_2 = BIG_STRIDE / 2`. -/
def BIG_STRIDE_DIV_2 : Nat := BIG_STRIDE / 2

/-- `impl Ord for StrideImpl<usize>`: wrapped comparison of two stride
counters (`a`, `b` are the raw wrapped values, below `USIZE_MOD`). -/
def strideCmp (a b : Nat) : Ordering :=
  if a < b then (if b - a ≤ BIG_STRIDE_DIV_2 then .lt else .gt)
  else if a = b then .eq
  else (if a - b ≤ BIG_STRIDE_DIV_2 then .gt else .lt)

/-- Infinite-precision comparison of two unwrapped stride counters. -/
def natCmp (a b : Nat) : Ordering :=
  if a < b then .lt else if a = b then .eq else .gt

/-- Per-dispatch stride increment `T::BIG_STRIDE / priority` from
`StrideImpl::step` (integer division). -/
def stepIncrement (priority : Nat) : Nat := BIG_STRIDE / priority

/-- `StrideImpl::step` for the `usize` instantiation: wrapping addition of
the increment onto the stride counter. -/
def strideStep (stride priority : Nat) : Nat :=
  (stride + stepIncrement priority) % USIZE_MOD

/-- Result of `PriorityImpl::<u32>::try_from(isize)`: `ok` for values in
`2..=u32::MAX`, `err` outside `2..=isize::MAX`, and a kernel panic (the
`u32::try_from(value).unwrap()`) for in-range values above `u32::MAX`. -/
inductive PriorityTryFrom where
  | ok (p : Nat)
  | err
  | panicked
deriving DecidableEq, Repr

/-- `impl TryFrom<isize> for PriorityImpl<u32>` (`Priority = PriorityImpl<u32>`). -/
def priorityTryFrom (value : Int) : PriorityTryFrom :=
  if 2 ≤ value ∧ value ≤ 2 ^ 63 - 1 then
    if value ≤ 2 ^ 32 - 1 then .ok value.toNat else .panicked
  else .err

/-- `sys_set_priority`: the pair is (syscall return value, task priority
afterwards); a `none` return value marks a kernel panic. -/
def sysSetPriority (pri : Int) (cur : Nat) : Option Int × Nat :=
  match priorityTryFrom pri with
  | .ok p => (some pri, p)
  | .err => (some (-1), cur)
  | .panicked => (none, cur)

/-- Child process as observed by `sys_waitpid`: its pid, whether its inner
state `is_zombie()`, and its recorded `exit_code`. -/
structure Child where
  pid : Nat
  zombie : Bool
  exit_code : Int
deriving DecidableEq, Repr

/-- `pid as usize` for an `isize` value: two's-complement reinterpretation. -/
def usizeOfIsize (v : Int) : Nat := (v % (2 ^ 64 : Int)).toNat

/-- `usize as isize` (used for `found_pid as isize`). -/
def isizeOfUsize (n : Nat) : Int := if n < 2 ^ 63 then (n : Int) else (n : Int) - 2 ^ 64

/-- The pid filter of `sys_waitpid`: `pid == -1 || pid as usize == p.getpid()`. -/
def pidMatches (pid : Int) (c : Child) : Bool :=
  pid == -1 || usizeOfIsize pid == c.pid

/-- `children.iter().enumerate().find(..)`: first index/element satisfying `p`. -/
def findWithIdx (p : Child → Bool) : List Child → Nat → Option (Nat × Child)
  | [], _ => none
  | c :: rest, i => if p c then some (i, c) else findWithIdx p rest (i + 1)

/-- `sys_waitpid`: returns the syscall result, the parent's children list
afterwards, and the exit code written through `exit_code_ptr` (if any). -/
def sysWaitpid (children : List Child) (pid : Int) : Int × List Child × Option Int :=
  if ¬ children.any (fun c => pidMatches pid c) then (-1, children, none)
  else
    match findWithIdx (fun c => c.zombie && pidMatches pid c) children 0 with
    | some (idx, child) =>
      (isizeOfUsize child.pid, children.eraseIdx idx, some child.exit_code)
    | none => (-2, children, none)

/-- `struct RunningTimeInfo` fields used on the process-scheduling path. -/
structure RunningTimeInfo where
  user_time_us : Nat
  kernel_time_us : Nat
  first_run_time_us : Nat
deriving DecidableEq, Repr

/-- `struct TaskInfoBlock`: one task's accounting record (per-syscall
counters and running times). -/
structure TaskInfoBlock where
  syscall_times : List (Nat × Nat)
  running_times : RunningTimeInfo
deriving DecidableEq, Repr

/-- `Processor::update_task_first_run_time` (the `TaskManager` variant has
the same logic): record the first-scheduled timestamp only while it is
still zero, then start the user timer (`assert_eq!(user_timer, 0)`; `none`
marks the failed assertion).  `now_us` and `timer_now_us` are the two
successive `get_time_us()` reads; the second component of the result is
the processor's user-timer field. -/
def updateTaskFirstRunTime (infos : TaskInfoBlock) (user_timer_us : Nat)
    (now_us timer_now_us : Nat) : Option (TaskInfoBlock × Nat) :=
  if infos.running_times.first_run_time_us ≠ 0 then some (infos, user_timer_us)
  else
    let infos' := { infos with
      running_times := { infos.running_times with first_run_time_us := now_us } }
    if user_timer_us = 0 then some (infos', timer_now_us) else none

theorem keysOf_entryOrInsert_subset {α : Type} (m : List (Nat × α)) (k : Nat) (d : α)
    (f : α → α) : ∀ y ∈ keysOf (entryOrInsert m k d f), y = k ∨ y ∈ keysOf m := by
  induction m with
  | nil => simp [entryOrInsert, keysOf]
  | cons hd tl ih =>
    obtain ⟨k', v'⟩ := hd
    intro y hy
    simp only [entryOrInsert] at hy
    split at hy
    · simp [keysOf] at hy ⊢
      tauto
    · split at hy
      · simp_all [keysOf]
      · simp only [keysOf, List.map_cons, List.mem_cons] at hy ⊢
        rcases hy with h | h
        · tauto
        · rcases ih y h with h' | h' <;> tauto

theorem entryOrInsert_sorted {α : Type} {m : List (Nat × α)} (k : Nat) (d : α) (f : α → α)
    (hs : SortedKeys m) : SortedKeys (entryOrInsert m k d f) := by
  induction m with
  | nil => simp [entryOrInsert, SortedKeys, keysOf]
  | cons hd tl ih =>
    obtain ⟨k', v'⟩ := hd
    simp only [SortedKeys, keysOf, List.map_cons, List.pairwise_cons] at hs
    obtain ⟨hlt, htl⟩ := hs
    simp only [entryOrInsert]
    split
    · simp only [SortedKeys, keysOf, List.map_cons, List.pairwise_cons]
      refine ⟨?_, ?_, htl⟩
      · intro y hy
        simp only [List.mem_cons] at hy
        rcases hy with rfl | hy
        · assumption
        · exact lt_trans (by assumption) (hlt y hy)
      · exact hlt
    · split
      · simp only [SortedKeys, keysOf, List.map_cons, List.pairwise_cons]
        exact ⟨hlt, htl⟩
      · simp only [SortedKeys, keysOf, List.map_cons, List.pairwise_cons]
        constructor
        · intro y hy
          rcases keysOf_entryOrInsert_subset tl k d f y (by simpa [keysOf] using hy) with rfl | h
          · omega
          · exact hlt y h
        · exact ih htl

theorem setKey_sorted {α : Type} {m : List (Nat × α)} (k : Nat) (v : α)
    (hs : SortedKeys m) : SortedKeys (setKey m k v) := by
  unfold SortedKeys at *
  rw [keysOf_setKey]
  exact hs

theorem sortedKeys_nodup {α : Type} {m : List (Nat × α)} (hs : SortedKeys m) :
    (keysOf m).Nodup := by
  exact hs.imp Nat.ne_of_lt

theorem btreeGet_of_mem_nodup {α : Type} {m : List (Nat × α)} {k : Nat} {v : α}
    (hnd : (keysOf m).Nodup) (h : (k, v) ∈ m) : btreeGet m k = some v := by
  induction m with
  | nil => simp at h
  | cons hd tl ih =>
    obtain ⟨k', v'⟩ := hd
    simp only [keysOf, List.map_cons, List.nodup_cons] at hnd
    simp only [List.mem_cons] at h
    rcases h with h | h
    · obtain ⟨rfl, rfl⟩ := Prod.mk.injEq .. ▸ h
      simp [btreeGet]
    · have hk : k ≠ k' := by
        rintro rfl
        exact hnd.1 (by simpa [keysOf] using List.mem_map_of_mem Prod.fst h)
      simp only [btreeGet, if_neg hk]
      exact ih hnd.2 h

theorem lookupD_setKey_self {m : List (Nat × Nat)} {k : Nat} (v : Nat)
    (h : k ∈ keysOf m) : lookupD (setKey m k v) k = v := by
  simp [lookupD, btreeGet_setKey_self v h]

theorem lookupD_setKey_ne {m : List (Nat × Nat)} {k k' : Nat} (v : Nat)
    (h : k' ≠ k) : lookupD (setKey m k v) k' = lookupD m k' := by
  simp [lookupD, btreeGet_setKey_ne v h]

theorem allocSum_cons (r₀ : Nat) (st : TaskResourcesState)
    (rest : List (Nat × TaskResourcesState)) (r : Nat) :
    allocSum ((r₀, st) :: rest) r =
      (if r₀ = r then st.allocation else 0) + allocSum rest r := by
  simp [allocSum]

theorem needsMet_ok_true {work : List (Nat × Nat)}
    {rs : List (Nat × TaskResourcesState)}
    (h : needsMet work rs = .ok true) : NeedsLE (lookupD work) rs := by
  induction rs with
  | nil => intro p hp; simp at hp
  | cons hd tl ih =>
    obtain ⟨r, st⟩ := hd
    cases hw : btreeGet work r with
    | none => simp [needsMet, hw] at h
    | some w =>
      simp only [needsMet, hw] at h
      by_cases hle : st.need ≤ w
      · rw [if_pos hle] at h
        intro p hp
        rcases List.mem_cons.1 hp with heq | hp'
        · subst heq
          simpa [lookupD, hw] using hle
        · exact ih h p hp'
      · rw [if_neg hle] at h
        simp at h

theorem needsMet_of_le {work : List (Nat × Nat)}
    {rs : List (Nat × TaskResourcesState)}
    (hdom : ∀ q ∈ rs, q.1 ∈ keysOf work)
    (hle : NeedsLE (lookupD work) rs) : needsMet work rs = .ok true := by
  induction rs with
  | nil => rfl
  | cons hd tl ih =>
    obtain ⟨r, st⟩ := hd
    have hr : r ∈ keysOf work := hdom (r, st) (by simp)
    obtain ⟨w, hw⟩ := Option.isSome_iff_exists.1 (btreeGet_isSome_iff.2 hr)
    have hneed : st.need ≤ w := by
      have := hle (r, st) (by simp)
      simpa [lookupD, hw] using this
    simp only [needsMet, hw, if_pos hneed]
    exact ih (fun q hq => hdom q (by simp [hq])) (fun p hp => hle p (by simp [hp]))

theorem needsMet_no_error {work : List (Nat × Nat)}
    {rs : List (Nat × TaskResourcesState)}
    (hdom : ∀ q ∈ rs, q.1 ∈ keysOf work) : ∃ b, needsMet work rs = .ok b := by
  induction rs with
  | nil => exact ⟨true, rfl⟩
  | cons hd tl ih =>
    obtain ⟨r, st⟩ := hd
    have hr : r ∈ keysOf work := hdom (r, st) (by simp)
    obtain ⟨w, hw⟩ := Option.isSome_iff_exists.1 (btreeGet_isSome_iff.2 hr)
    simp only [needsMet, hw]
    split
    · exact ih (fun q hq => hdom q (by simp [hq]))
    · exact ⟨false, rfl⟩

theorem addAllocs_keys {work work' : List (Nat × Nat)}
    {rs : List (Nat × TaskResourcesState)}
    (h : addAllocs work rs = .ok work') : keysOf work' = keysOf work := by
  induction rs generalizing work with
  | nil =>
    simp only [addAllocs] at h
    cases h
    rfl
  | cons hd tl ih =>
    obtain ⟨r, st⟩ := hd
    cases hw : btreeGet work r with
    | none => simp [addAllocs, hw] at h
    | some w =>
      simp only [addAllocs, hw] at h
      rw [ih h, keysOf_setKey]

theorem addAllocs_lookupD {work work' : List (Nat × Nat)}
    {rs : List (Nat × TaskResourcesState)}
    (h : addAllocs work rs = .ok work') :
    ∀ r, lookupD work' r = lookupD work r + allocSum rs r := by
  induction rs generalizing work with
  | nil =>
    simp only [addAllocs] at h
    cases h
    intro r
    simp [allocSum]
  | cons hd tl ih =>
    obtain ⟨r₀, st⟩ := hd
    cases hw : btreeGet work r₀ with
    | none => simp [addAllocs, hw] at h
    | some w =>
      simp only [addAllocs, hw] at h
      intro r
      rw [ih h r, allocSum_cons]
      by_cases hr : r = r₀
      · subst hr
        rw [lookupD_setKey_self _ (btreeGet_isSome_iff.1 (by simp [hw])), if_pos rfl]
        have : lookupD work r = w := by simp [lookupD, hw]
        omega
      · rw [lookupD_setKey_ne _ hr]
        have : ¬ (r₀ = r) := fun hh => hr hh.symm
        simp [this]

theorem addAllocs_no_error {work : List (Nat × Nat)}
    {rs : List (Nat × TaskResourcesState)}
    (hdom : ∀ q ∈ rs, q.1 ∈ keysOf work) : ∃ w', addAllocs work rs = .ok w' := by
  induction rs generalizing work with
  | nil => exact ⟨work, rfl⟩
  | cons hd tl ih =>
    obtain ⟨r, st⟩ := hd
    have hr : r ∈ keysOf work := hdom (r, st) (by simp)
    obtain ⟨w, hw⟩ := Option.isSome_iff_exists.1 (btreeGet_isSome_iff.2 hr)
    simp only [addAllocs, hw]
    exact ih (fun q hq => by
      rw [keysOf_setKey]
      exact hdom q (by simp [hq]))

theorem findEligible_ok_some {work : List (Nat × Nat)}
    {finish : List (Nat × Bool)}
    {tasks : List (Nat × List (Nat × TaskResourcesState))}
    {t : Nat} {rs : List (Nat × TaskResourcesState)}
    (h : findEligible work finish tasks = .ok (some (t, rs))) :
    (t, rs) ∈ tasks ∧ btreeGet finish t = some false ∧ needsMet work rs = .ok true := by
  induction tasks with
  | nil => simp [findEligible] at h
  | cons hd tl ih =>
    obtain ⟨t', rs'⟩ := hd
    cases hf : btreeGet finish t' with
    | none => simp [findEligible, hf] at h
    | some fin =>
      simp only [findEligible, hf] at h
      cases fin with
      | true =>
        rw [if_pos rfl] at h
        have := ih h
        exact ⟨by simp [this.1], this.2⟩
      | false =>
        rw [if_neg (by simp)] at h
        cases hn : needsMet work rs' with
        | error e => rw [hn] at h; cases h
        | ok b =>
          rw [hn] at h
          cases b with
          | true =>
            simp only [Except.ok.injEq, Option.some.injEq, Prod.mk.injEq] at h
            obtain ⟨rfl, rfl⟩ := h
            exact ⟨by simp, hf, hn⟩
          | false =>
            have := ih h
            exact ⟨by simp [this.1], this.2⟩

theorem findEligible_ok_none {work : List (Nat × Nat)}
    {finish : List (Nat × Bool)}
    {tasks : List (Nat × List (Nat × TaskResourcesState))}
    (h : findEligible work finish tasks = .ok none) :
    ∀ p ∈ tasks, btreeGet finish p.1 = some true ∨
      (btreeGet finish p.1 = some false ∧ needsMet work p.2 = .ok false) := by
  induction tasks with
  | nil => simp
  | cons hd tl ih =>
    obtain ⟨t', rs'⟩ := hd
    cases hf : btreeGet finish t' with
    | none => simp [findEligible, hf] at h
    | some fin =>
      simp only [findEligible, hf] at h
      cases fin with
      | true =>
        rw [if_pos rfl] at h
        intro p hp
        rcases List.mem_cons.1 hp with heq | hp'
        · subst heq; exact Or.inl hf
        · exact ih h p hp'
      | false =>
        rw [if_neg (by simp)] at h
        cases hn : needsMet work rs' with
        | error e => rw [hn] at h; cases h
        | ok b =>
          rw [hn] at h
          cases b with
          | true => cases h
          | false =>
            intro p hp
            rcases List.mem_cons.1 hp with heq | hp'
            · subst heq; exact Or.inr ⟨hf, hn⟩
            · exact ih h p hp'

theorem findEligible_no_error {work : List (Nat × Nat)}
    {finish : List (Nat × Bool)}
    {tasks : List (Nat × List (Nat × TaskResourcesState))}
    (hfin : ∀ p ∈ tasks, p.1 ∈ keysOf finish)
    (hdom : ∀ p ∈ tasks, ∀ q ∈ p.2, q.1 ∈ keysOf work) :
    ∃ o, findEligible work finish tasks = .ok o := by
  induction tasks with
  | nil => exact ⟨none, rfl⟩
  | cons hd tl ih =>
    obtain ⟨t', rs'⟩ := hd
    obtain ⟨fin, hf⟩ := Option.isSome_iff_exists.1
      (btreeGet_isSome_iff.2 (hfin (t', rs') (by simp)))
    simp only [findEligible, hf]
    cases fin with
    | true =>
      rw [if_pos rfl]
      exact ih (fun p hp => hfin p (by simp [hp])) (fun p hp => hdom p (by simp [hp]))
    | false =>
      rw [if_neg (by simp)]
      obtain ⟨b, hn⟩ := needsMet_no_error (hdom (t', rs') (by simp))
      rw [hn]
      cases b with
      | true => exact ⟨some (t', rs'), rfl⟩
      | false =>
        exact ih (fun p hp => hfin p (by simp [hp])) (fun p hp => hdom p (by simp [hp]))

theorem countFalse_setKey_true {finish : List (Nat × Bool)} {t : Nat}
    (h : btreeGet finish t = some false) :
    countFalse (setKey finish t true) < countFalse finish := by
  induction finish with
  | nil => simp [btreeGet] at h
  | cons hd tl ih =>
    obtain ⟨t', b⟩ := hd
    by_cases ht : t = t'
    · subst ht
      simp only [btreeGet, if_true, eq_self_iff_true, Option.some.injEq] at h
      subst h
      simp [setKey, countFalse, List.filter]
    · simp only [btreeGet, if_neg ht] at h
      simp only [setKey, if_neg ht]
      cases b with
      | true => simpa [countFalse, List.filter] using ih h
      | false => simpa [countFalse, List.filter] using ih h

theorem btreeGet_map_false {α : Type} {l : List (Nat × α)} {t : Nat}
    (h : t ∈ keysOf l) : btreeGet (l.map (fun p => (p.1, false))) t = some false := by
  induction l with
  | nil => simp [keysOf] at h
  | cons hd tl ih =>
    obtain ⟨k, v⟩ := hd
    by_cases ht : t = k
    · subst ht
      simp [btreeGet]
    · simp only [List.map_cons, btreeGet, if_neg ht]
      exact ih (by simpa [keysOf, ht] using h)

theorem keysOf_map_false {α : Type} (l : List (Nat × α)) :
    keysOf (l.map (fun p => (p.1, false))) = keysOf l := by
  simp [keysOf]

theorem pendingOf_init
    (tasks : List (Nat × List (Nat × TaskResourcesState))) :
    pendingOf tasks (tasks.map (fun p => (p.1, false))) = tasks := by
  apply List.filter_eq_self.2
  intro p hp
  have : btreeGet (tasks.map (fun p => (p.1, false))) p.1 = some false :=
    btreeGet_map_false (by simpa [keysOf] using List.mem_map_of_mem Prod.fst hp)
  simp [isUnfinished, this]

theorem pendingOf_setKey_of_notin {finish : List (Nat × Bool)}
    {tasks : List (Nat × List (Nat × TaskResourcesState))}
    {t : Nat} (h : ∀ p ∈ tasks, p.1 ≠ t) :
    pendingOf tasks (setKey finish t true) = pendingOf tasks finish := by
  unfold pendingOf
  apply List.filter_congr
  intro p hp
  simp [isUnfinished, btreeGet_setKey_ne true (h p hp)]

theorem mem_keysOf_iff {α : Type} {l : List (Nat × α)} {k : Nat} :
    k ∈ keysOf l ↔ ∃ v, (k, v) ∈ l := by
  unfold keysOf
  constructor
  · intro h
    obtain ⟨⟨a, b⟩, hm, he⟩ := List.mem_map.1 h
    exact ⟨b, by simpa [← he] using hm⟩
  · rintro ⟨v, hv⟩
    exact List.mem_map.2 ⟨(k, v), hv, rfl⟩

theorem pendingOf_setKey_erase {finish : List (Nat × Bool)}
    {tasks : List (Nat × List (Nat × TaskResourcesState))}
    {t : Nat} {rs : List (Nat × TaskResourcesState)}
    (hnd : (keysOf tasks).Nodup) (hmem : (t, rs) ∈ tasks)
    (hfin : btreeGet finish t = some false) :
    pendingOf tasks (setKey finish t true) = (pendingOf tasks finish).erase (t, rs) := by
  have htk : t ∈ keysOf finish := btreeGet_isSome_iff.1 (by simp [hfin])
  induction tasks with
  | nil => simp at hmem
  | cons hd tl ih =>
    obtain ⟨u, qs⟩ := hd
    simp only [keysOf, List.map_cons, List.nodup_cons] at hnd
    by_cases hu : u = t
    · subst hu
      have hqs : qs = rs := by
        rcases List.mem_cons.1 hmem with heq | hmem'
        · exact (Prod.mk.injEq .. ▸ heq.symm).2
        · exact absurd (by simpa [keysOf] using List.mem_map_of_mem Prod.fst hmem') hnd.1
      subst hqs
      have h1 : isUnfinished finish u = true := by simp [isUnfinished, hfin]
      have h2 : isUnfinished (setKey finish u true) u = false := by
        simp [isUnfinished, btreeGet_setKey_self true htk]
      simp only [pendingOf, List.filter_cons, h1, h2, if_true, if_false]
      rw [List.erase_cons_head]
      exact pendingOf_setKey_of_notin (fun p hp heq => hnd.1 (by
        simpa [keysOf, heq] using List.mem_map_of_mem Prod.fst hp))
    · have hmem' : (t, rs) ∈ tl := by
        rcases List.mem_cons.1 hmem with heq | hmem'
        · exact absurd (congrArg Prod.fst heq).symm hu
        · exact hmem'
      have hne : isUnfinished (setKey finish t true) u = isUnfinished finish u := by
        simp [isUnfinished, btreeGet_setKey_ne true hu]
      have h3 := ih hnd.2 hmem'
      simp only [pendingOf] at h3 ⊢
      cases hfu : isUnfinished finish u with
      | true =>
        have hpairne : ((u, qs) :
            Nat × List (Nat × TaskResourcesState)) ≠ (t, rs) :=
          fun hh => hu (congrArg Prod.fst hh)
        simp only [List.filter_cons, hne, hfu, if_true]
        rw [List.erase_cons_tail (by simpa using hpairne), h3]
      | false =>
        simp [List.filter_cons, hne, hfu, h3]

theorem finish_all_iff_pending_nil {finish : List (Nat × Bool)}
    {tasks : List (Nat × List (Nat × TaskResourcesState))}
    (hk : keysOf finish = keysOf tasks) (hnd : (keysOf finish).Nodup) :
    finish.all (·.2) = true ↔ pendingOf tasks finish = [] := by
  constructor
  · intro hall
    apply List.filter_eq_nil.2
    intro p hp
    have hpk : p.1 ∈ keysOf finish := hk ▸ (by simpa [keysOf] using List.mem_map_of_mem Prod.fst hp)
    obtain ⟨b, hb⟩ := Option.isSome_iff_exists.1 (btreeGet_isSome_iff.2 hpk)
    have hmemb : (p.1, b) ∈ finish := btreeGet_mem hb
    have : b = true := by simpa using List.all_eq_true.1 hall _ hmemb
    subst this
    simp [isUnfinished, hb]
  · intro hnil
    apply List.all_eq_true.2
    rintro ⟨u, b⟩ hub
    have huk : u ∈ keysOf tasks := hk ▸ (by simpa [keysOf] using List.mem_map_of_mem Prod.fst hub)
    obtain ⟨qs, hq⟩ := mem_keysOf_iff.1 huk
    have hbu : btreeGet finish u = some b := btreeGet_of_mem_nodup hnd hub
    have := List.filter_eq_nil.1 hnil (u, qs) hq
    simp only [isUnfinished, hbu] at this
    simpa using this

theorem addWork_le (w : Nat → Nat) (rs : List (Nat × TaskResourcesState)) :
    ∀ r, w r ≤ addWork w rs r :=
  fun r => Nat.le_add_right _ _

theorem addWork_mono {w w' : Nat → Nat} (h : ∀ r, w r ≤ w' r)
    (rs : List (Nat × TaskResourcesState)) :
    ∀ r, addWork w rs r ≤ addWork w' rs r :=
  fun r => Nat.add_le_add_right (h r) _

theorem addWork_comm (w : Nat → Nat) (qs rs : List (Nat × TaskResourcesState)) :
    addWork (addWork w qs) rs = addWork (addWork w rs) qs := by
  funext r
  simp only [addWork]
  omega

theorem needsLE_mono {w w' : Nat → Nat} {rs : List (Nat × TaskResourcesState)}
    (h : ∀ r, w r ≤ w' r) (hn : NeedsLE w rs) : NeedsLE w' rs :=
  fun p hp => le_trans (hn p hp) (h p.1)

theorem specSafe_mono {w w' : Nat → Nat}
    {pending : List (Nat × List (Nat × TaskResourcesState))}
    (h : SpecSafe w pending) (hle : ∀ r, w r ≤ w' r) : SpecSafe w' pending := by
  induction h generalizing w' with
  | nil w => exact .nil w'
  | step t rs hmem hle2 hrest ih =>
    exact .step t rs hmem (needsLE_mono hle hle2) (ih (addWork_mono hle rs))

theorem SpecSafe.exchange {w : Nat → Nat}
    {pending : List (Nat × List (Nat × TaskResourcesState))}
    (h : SpecSafe w pending) :
    ∀ t rs, (t, rs) ∈ pending → NeedsLE w rs →
      SpecSafe (addWork w rs) (pending.erase (t, rs)) := by
  induction h with
  | nil w =>
    intro t rs hmem
    simp at hmem
  | step u qs hmem hle hrest ih =>
    intro t rs htmem htle
    by_cases heq : (u, qs) = (t, rs)
    · cases heq
      exact hrest
    · have htmem' : (t, rs) ∈ _ := (List.mem_erase_of_ne (Ne.symm heq)).2 htmem
      have h2 := ih t rs htmem' (needsLE_mono (addWork_le _ qs) htle)
      rw [addWork_comm, List.erase_comm] at h2
      exact .step u qs ((List.mem_erase_of_ne heq).2 hmem) (needsLE_mono (addWork_le _ rs) hle) h2

theorem securityLoop_spec
    {tasks : List (Nat × List (Nat × TaskResourcesState))}
    (hnd : (keysOf tasks).Nodup) :
    ∀ (fuel : Nat) (work : List (Nat × Nat))
      (finish : List (Nat × Bool)),
      keysOf finish = keysOf tasks →
      (∀ p ∈ tasks, ∀ q ∈ p.2, q.1 ∈ keysOf work) →
      countFalse finish < fuel →
      ∃ b, securityLoop tasks fuel work finish = .ok b ∧
        (b = true ↔ SpecSafe (lookupD work) (pendingOf tasks finish)) := by
  intro fuel
  induction fuel with
  | zero =>
    intro work finish _ _ hcf
    omega
  | succ fuel ih =>
    intro work finish hk hdom hcf
    have hfin_keys : ∀ p ∈ tasks, p.1 ∈ keysOf finish := by
      intro p hp
      rw [hk]
      simpa [keysOf] using List.mem_map_of_mem Prod.fst hp
    obtain ⟨o, ho⟩ := findEligible_no_error hfin_keys hdom
    cases o with
    | none =>
      have hnd_fin : (keysOf finish).Nodup := hk ▸ hnd
      refine ⟨finish.all (·.2), by simp [securityLoop, ho], ?_, ?_⟩
      · intro hall
        rw [(finish_all_iff_pending_nil hk hnd_fin).1 hall]
        exact .nil _
      · intro hsafe
        by_contra hall
        cases hsp : pendingOf tasks finish with
        | nil => exact hall ((finish_all_iff_pending_nil hk hnd_fin).2 hsp)
        | cons hd tlp =>
          rw [hsp] at hsafe
          cases hsafe with
          | step t₀ rs₀ hmem₀ hle₀ hrest₀ =>
          have hmem₀' : (t₀, rs₀) ∈ pendingOf tasks finish := by
            rw [hsp]
            exact hmem₀
          obtain ⟨hmem_tasks, hcond⟩ := List.mem_filter.1 hmem₀'
          have hfin₀ : btreeGet finish t₀ = some false := by
            revert hcond
            unfold isUnfinished
            cases hbg : btreeGet finish t₀ with
            | none => simp
            | some b => cases b <;> simp
          rcases findEligible_ok_none ho (t₀, rs₀) hmem_tasks with h | ⟨_, hnm⟩
          · rw [hfin₀] at h
            cases h
          · have := needsMet_of_le (hdom (t₀, rs₀) hmem_tasks) hle₀
            rw [hnm] at this
            cases this
    | some p =>
      obtain ⟨t, rs⟩ := p
      obtain ⟨hmem_t, hfin_t, hneeds⟩ := findEligible_ok_some ho
      obtain ⟨work', hw'⟩ := addAllocs_no_error (hdom (t, rs) hmem_t)
      have hk' : keysOf (setKey finish t true) = keysOf tasks := by
        rw [keysOf_setKey]; exact hk
      have hdom' : ∀ p ∈ tasks, ∀ q ∈ p.2, q.1 ∈ keysOf work' := by
        intro p hp q hq
        rw [addAllocs_keys hw']
        exact hdom p hp q hq
      have hcf' : countFalse (setKey finish t true) < fuel := by
        have := countFalse_setKey_true hfin_t
        omega
      obtain ⟨b, hb, hiff⟩ := ih work' (setKey finish t true) hk' hdom' hcf'
      have hwfun : lookupD work' = addWork (lookupD work) rs :=
        funext (fun r => by rw [addAllocs_lookupD hw' r]; rfl)
      have hpend' : pendingOf tasks (setKey finish t true) =
          (pendingOf tasks finish).erase (t, rs) :=
        pendingOf_setKey_erase hnd hmem_t hfin_t
      rw [hwfun, hpend'] at hiff
      have hmem_pend : (t, rs) ∈ pendingOf tasks finish :=
        List.mem_filter.2 ⟨hmem_t, by simp [isUnfinished, hfin_t]⟩
      have hneedle : NeedsLE (lookupD work) rs := needsMet_ok_true hneeds
      refine ⟨b, by simp [securityLoop, ho, hw', hfin_t, hb], ?_, ?_⟩
      · intro hbtrue
        exact .step t rs hmem_pend hneedle (hiff.1 hbtrue)
      · intro hsafe
        exact hiff.2 (hsafe.exchange t rs hmem_pend hneedle)

/-- Correctness of `security_check` against the specification's simulation,
for states satisfying the `BTreeMap` key invariant and whose recorded
resources are all registered in `available`. -/
theorem security_check_spec {s : BankersAlgorithm}
    (hnd : (keysOf s.task_state).Nodup) (hreg : ResourcesRegistered s) :
    ∃ b, s.security_check = .ok b ∧
      (b = true ↔ SpecSafe (lookupD s.available) s.task_state) := by
  have hk : keysOf (s.task_state.map (fun p => (p.1, false))) = keysOf s.task_state :=
    keysOf_map_false s.task_state
  have hcf : countFalse (s.task_state.map (fun p => (p.1, false))) <
      (s.task_state.map (fun p => (p.1, false))).length + 1 := by
    have : countFalse (s.task_state.map (fun p => (p.1, false))) ≤
        (s.task_state.map (fun p => (p.1, false))).length :=
      List.length_filter_le _ _
    omega
  obtain ⟨b, hb, hiff⟩ := securityLoop_spec hnd
    ((s.task_state.map (fun p => (p.1, false))).length + 1)
    s.available (s.task_state.map (fun p => (p.1, false))) hk hreg hcf
  refine ⟨b, hb, ?_⟩
  rwa [pendingOf_init] at hiff

theorem record_effects {s : BankersAlgorithm} {t : Nat} {r : Nat}
    {n : Nat} (hs1 : SortedKeys s.task_state)
    (hs2 : ∀ p ∈ s.task_state, SortedKeys p.2) :
    (s.record t r n).available = s.available ∧
    needOf (s.record t r n) t r = needOf s t r + n ∧
    (∀ t' r', t' ≠ t ∨ r' ≠ r → needOf (s.record t r n) t' r' = needOf s t' r') ∧
    (∀ t' r', allocOf (s.record t r n) t' r' = allocOf s t' r') := by
  have hrs0sorted : SortedKeys ((btreeGet s.task_state t).getD []) := by
    cases hbt : btreeGet s.task_state t with
    | none => simp [SortedKeys, keysOf]
    | some rs => exact hs2 (t, rs) (btreeGet_mem hbt)
  have houter := btreeGet_entryOrInsert_self t []
    (fun rs => entryOrInsert rs r ⟨0, 0⟩ (fun st => { st with need := st.need + n })) hs1
  have hinner := btreeGet_entryOrInsert_self r (⟨0, 0⟩ : TaskResourcesState)
    (fun st => { st with need := st.need + n }) hrs0sorted
  refine ⟨rfl, ?_, ?_, ?_⟩
  · simp only [needOf, BankersAlgorithm.record, houter, Option.getD_some, hinner]
  · intro t' r' hne
    by_cases ht' : t' = t
    · subst ht'
      rcases hne with h | h
      · exact absurd rfl h
      · simp only [needOf, BankersAlgorithm.record, houter, Option.getD_some,
          btreeGet_entryOrInsert_ne _ (⟨0, 0⟩ : TaskResourcesState) _ h]
    · simp only [needOf, BankersAlgorithm.record,
        btreeGet_entryOrInsert_ne _ [] _ ht']
  · intro t' r'
    by_cases ht' : t' = t
    · subst ht'
      by_cases hr' : r' = r
      · subst hr'
        simp only [allocOf, BankersAlgorithm.record, houter, Option.getD_some, hinner]
      · simp only [allocOf, BankersAlgorithm.record, houter, Option.getD_some,
          btreeGet_entryOrInsert_ne _ (⟨0, 0⟩ : TaskResourcesState) _ hr']
    · simp only [allocOf, BankersAlgorithm.record,
        btreeGet_entryOrInsert_ne _ [] _ ht']

theorem map_sum_setKey
    {ts : List (Nat × List (Nat × TaskResourcesState))}
    {t : Nat} {rs : List (Nat × TaskResourcesState)}
    (g : List (Nat × TaskResourcesState) → Nat)
    (h : btreeGet ts t = some rs) (rs' : List (Nat × TaskResourcesState)) :
    ((setKey ts t rs').map (fun p => g p.2)).sum + g rs =
      (ts.map (fun p => g p.2)).sum + g rs' := by
  induction ts with
  | nil => simp [btreeGet] at h
  | cons hd tl ih =>
    obtain ⟨u, qs⟩ := hd
    by_cases hu : t = u
    · subst hu
      simp only [btreeGet, if_true, eq_self_iff_true, Option.some.injEq] at h
      subst h
      simp only [setKey, if_true, eq_self_iff_true, List.map_cons, List.sum_cons]
      set A := (tl.map (fun p => g p.2)).sum with hA
      omega
    · simp only [btreeGet, if_neg hu] at h
      have hset : setKey ((u, qs) :: tl) t rs' = (u, qs) :: setKey tl t rs' := by
        simp [setKey, hu]
      rw [hset]
      simp only [List.map_cons, List.sum_cons]
      have h2 := ih h
      set A := ((setKey tl t rs').map (fun p => g p.2)).sum with hA
      set B := (tl.map (fun p => g p.2)).sum with hB
      omega

theorem map_sum_setKey_alloc
    {ts : List (Nat × List (Nat × TaskResourcesState))}
    {t : Nat} {rs : List (Nat × TaskResourcesState)}
    (rho : Nat)
    (h : btreeGet ts t = some rs) (rs' : List (Nat × TaskResourcesState)) :
    ((setKey ts t rs').map (fun p => allocEntry p.2 rho)).sum + allocEntry rs rho =
      (ts.map (fun p => allocEntry p.2 rho)).sum + allocEntry rs' rho :=
  map_sum_setKey (fun l => allocEntry l rho) h rs'

theorem acquire_totalOf {s s' : BankersAlgorithm} {t : Nat}
    {r : Nat} {n : Nat}
    (h : s.acquire t r n = some s') : ∀ ρ, totalOf s' ρ = totalOf s ρ := by
  unfold BankersAlgorithm.acquire at h
  cases ha : btreeGet s.available r with
  | none => simp [ha] at h
  | some avail =>
    simp only [ha] at h
    cases htt : btreeGet s.task_state t with
    | none => simp [htt] at h
    | some rs =>
      simp only [htt] at h
      cases hrr : btreeGet rs r with
      | none => simp [hrr] at h
      | some st =>
        simp only [hrr] at h
        split at h
        case isFalse => simp at h
        case isTrue hcond =>
          injection h with h
          subst h
          intro ρ
          have hravail : r ∈ keysOf s.available := btreeGet_isSome_iff.1 (by simp [ha])
          have hrrs : r ∈ keysOf rs := btreeGet_isSome_iff.1 (by simp [hrr])
          by_cases hρ : ρ = r
          · subst hρ
            have hsum := map_sum_setKey_alloc ρ htt
              (setKey rs ρ ⟨st.allocation + n, st.need - n⟩)
            have h1 : allocEntry rs ρ = st.allocation := by
              simp [allocEntry, hrr]
            have h2 : allocEntry (setKey rs ρ ⟨st.allocation + n, st.need - n⟩) ρ =
                st.allocation + n := by
              simp [allocEntry, btreeGet_setKey_self _ hrrs]
            rw [h1, h2] at hsum
            have h3 : lookupD (setKey s.available ρ (avail - n)) ρ = avail - n :=
              lookupD_setKey_self _ hravail
            have h4 : lookupD s.available ρ = avail := by simp [lookupD, ha]
            simp only [totalOf, h3, h4]
            omega
          · have hsum := map_sum_setKey_alloc ρ htt
              (setKey rs r ⟨st.allocation + n, st.need - n⟩)
            have h1 : allocEntry (setKey rs r ⟨st.allocation + n, st.need - n⟩) ρ =
                allocEntry rs ρ := by
              simp [allocEntry, btreeGet_setKey_ne _ hρ]
            rw [h1] at hsum
            have h3 : lookupD (setKey s.available r (avail - n)) ρ = lookupD s.available ρ :=
              lookupD_setKey_ne _ hρ
            simp only [totalOf, h3]
            omega

theorem release_totalOf {s s' : BankersAlgorithm} {t : Nat}
    {r : Nat} {n : Nat}
    (h : s.release t r n = some s') : ∀ ρ, totalOf s' ρ = totalOf s ρ := by
  unfold BankersAlgorithm.release at h
  cases ha : btreeGet s.available r with
  | none => simp [ha] at h
  | some avail =>
    simp only [ha] at h
    cases htt : btreeGet s.task_state t with
    | none => simp [htt] at h
    | some rs =>
      simp only [htt] at h
      cases hrr : btreeGet rs r with
      | none => simp [hrr] at h
      | some st =>
        simp only [hrr] at h
        split at h
        case isFalse => simp at h
        case isTrue hcond =>
          injection h with h
          subst h
          intro ρ
          have hravail : r ∈ keysOf s.available := btreeGet_isSome_iff.1 (by simp [ha])
          have hrrs : r ∈ keysOf rs := btreeGet_isSome_iff.1 (by simp [hrr])
          by_cases hρ : ρ = r
          · subst hρ
            have hsum := map_sum_setKey_alloc ρ htt
              (setKey rs ρ ⟨st.allocation - n, st.need⟩)
            have h1 : allocEntry rs ρ = st.allocation := by
              simp [allocEntry, hrr]
            have h2 : allocEntry (setKey rs ρ ⟨st.allocation - n, st.need⟩) ρ =
                st.allocation - n := by
              simp [allocEntry, btreeGet_setKey_self _ hrrs]
            rw [h1, h2] at hsum
            have h3 : lookupD (setKey s.available ρ (avail + n)) ρ = avail + n :=
              lookupD_setKey_self _ hravail
            have h4 : lookupD s.available ρ = avail := by simp [lookupD, ha]
            simp only [totalOf, h3, h4]
            omega
          · have hsum := map_sum_setKey_alloc ρ htt
              (setKey rs r ⟨st.allocation - n, st.need⟩)
            have h1 : allocEntry (setKey rs r ⟨st.allocation - n, st.need⟩) ρ =
                allocEntry rs ρ := by
              simp [allocEntry, btreeGet_setKey_ne _ hρ]
            rw [h1] at hsum
            have h3 : lookupD (setKey s.available r (avail + n)) ρ = lookupD s.available ρ :=
              lookupD_setKey_ne _ hρ
            simp only [totalOf, h3]
            omega

theorem add_resource_totalOf {s : BankersAlgorithm} (hs : SortedKeys s.available)
    (r : Nat) (n : Nat) (ρ : Nat) :
    totalOf (s.add_resource r n) ρ = totalOf s ρ + (if ρ = r then n else 0) := by
  unfold totalOf BankersAlgorithm.add_resource
  by_cases hρ : ρ = r
  · subst hρ
    simp only [lookupD, btreeGet_entryOrInsert_self ρ 0 (· + n) hs, Option.getD_some,
      if_true, eq_self_iff_true]
    cases btreeGet s.available ρ <;> simp <;> omega
  · simp only [lookupD, btreeGet_entryOrInsert_ne _ 0 _ hρ, if_neg hρ]
    omega

theorem request_eq {s : BankersAlgorithm} {t r n : Nat} {res : RequestResult}
    {s' : BankersAlgorithm} (h : s.request t r n = some (res, s')) :
    s' = s.record t r n ∧ (res = .Success ∨ res = .Deadlock) := by
  simp only [BankersAlgorithm.request] at h
  cases hsc : (s.record t r n).security_check with
  | error e => simp [hsc] at h
  | ok b =>
    simp only [hsc] at h
    cases b with
    | false =>
      simp only [Option.some.injEq, Prod.mk.injEq] at h
      exact ⟨h.2.symm, Or.inr h.1.symm⟩
    | true =>
      simp only [Option.some.injEq, Prod.mk.injEq] at h
      exact ⟨h.2.symm, Or.inl h.1.symm⟩

theorem findWithIdx_none {p : Child → Bool} :
    ∀ (l : List Child) (k : Nat), (∀ c ∈ l, p c = false) → findWithIdx p l k = none := by
  intro l
  induction l with
  | nil => intro k _; rfl
  | cons c rest ih =>
    intro k h
    have hc : p c = false := h c (by simp)
    simp only [findWithIdx, hc]
    simpa using ih (k + 1) (fun c' hc' => h c' (by simp [hc']))

theorem findWithIdx_first {p : Child → Bool} :
    ∀ (l : List Child) (i k : Nat) (hi : i < l.length),
      p l[i] = true → (∀ j (hj : j < l.length), j < i → p l[j] = false) →
      findWithIdx p l k = some (k + i, l[i]) := by
  intro l
  induction l with
  | nil => intro i k hi; simp at hi
  | cons c rest ih =>
    intro i k hi hp hmin
    cases i with
    | zero =>
      simp only [List.getElem_cons_zero] at hp ⊢
      simp [findWithIdx, hp]
    | succ i' =>
      have hc : p c = false := by
        have := hmin 0 (by simp) (by omega)
        simpa using this
      simp only [findWithIdx, hc, List.getElem_cons_succ] at *
      have := ih i' (k + 1) (by simp only [List.length_cons] at hi; omega) hp
        (fun j hj hji => by
          have := hmin (j + 1) (by simp only [List.length_cons]; omega) (by omega)
          simpa using this)
      rw [if_neg (by simp [hc])]
      rw [this, show k + 1 + i' = k + (i' + 1) from by omega]

theorem stepIncrement_ge_one {v : Int} {p : Nat}
    (h : priorityTryFrom v = .ok p) : 1 ≤ stepIncrement p := by
  unfold priorityTryFrom at h
  split at h
  · split at h
    · rename_i h1 h2
      injection h with h
      subst h
      have hp2 : 2 ≤ v.toNat := by omega
      have hpmax : v.toNat ≤ 2 ^ 32 - 1 := by omega
      have hpos : 0 < v.toNat := by omega
      rw [stepIncrement, BIG_STRIDE, Nat.one_le_div_iff hpos]
      omega
    · cases h
  · cases h

/-- C1: the claim (a request beyond the declared remaining need is rejected
as a declared-bound violation) fails on this code: with a declared need of
0 for resource 0, a request for 1 unit is answered `Success`, and the
declared need is silently grown to 1. -/
theorem C1_cex :
    needOf (BankersAlgorithm.default.add_resource 0 1) 0 0 = 0 ∧
    (BankersAlgorithm.default.add_resource 0 1).request 0 0 1 =
      some (RequestResult.Success, ⟨[(0, 1)], [(0, [(0, ⟨0, 1⟩)])]⟩) ∧
    needOf ⟨[(0, 1)], [(0, [(0, ⟨0, 1⟩)])]⟩ 0 0 = 1 := by decide

/-- C1 (amended): `request(task, resource, n)` never rejects a request for
exceeding the declared remaining need; it always grows `need[resource]` of
the task by `n` (`record`), and the only failure result is the safety
check's `Deadlock`. -/
theorem C1_amended {s : BankersAlgorithm} {t r n : Nat}
    (hs1 : SortedKeys s.task_state) (hs2 : ∀ p ∈ s.task_state, SortedKeys p.2) :
    needOf (s.record t r n) t r = needOf s t r + n ∧
    ∀ res s', s.request t r n = some (res, s') →
      s' = s.record t r n ∧
      (res = RequestResult.Success ∨ res = RequestResult.Deadlock) :=
  ⟨(record_effects hs1 hs2).2.1, fun _ _ h => request_eq h⟩

/-- C1 witness: the amended claim evaluated at a concrete state. -/
theorem C1_witness :
    needOf ((BankersAlgorithm.default.add_resource 0 1).record 0 0 1) 0 0 =
      needOf (BankersAlgorithm.default.add_resource 0 1) 0 0 + 1 ∧
    ∀ res s', (BankersAlgorithm.default.add_resource 0 1).request 0 0 1 = some (res, s') →
      s' = (BankersAlgorithm.default.add_resource 0 1).record 0 0 1 ∧
      (res = RequestResult.Success ∨ res = RequestResult.Deadlock) :=
  C1_amended (by decide) (by decide)

/-- C2: the claim (a rejected request leaves the state bit-identical) fails
on this code: a `Deadlock`-returning request leaves the recorded `need`
grown by `n`, so the state after differs from the state before. -/
theorem C2_cex :
    BankersAlgorithm.request ⟨[(0, 0)], [(0, [(0, ⟨1, 0⟩)])]⟩ 0 0 1 =
      some (RequestResult.Deadlock, ⟨[(0, 0)], [(0, [(0, ⟨1, 1⟩)])]⟩) ∧
    (⟨[(0, 0)], [(0, [(0, ⟨1, 1⟩)])]⟩ : BankersAlgorithm) ≠
      ⟨[(0, 0)], [(0, [(0, ⟨1, 0⟩)])]⟩ := by decide

/-- C2 (amended): after a `Deadlock`-returning `request(task, resource, n)`
the state differs from the state before exactly by the task's
`need[resource]` grown by `n`: `available`, every allocation entry, and
every other need entry are unchanged, and there is no rollback of the need
growth. -/
theorem C2_amended {s s' : BankersAlgorithm} {t r n : Nat}
    (hs1 : SortedKeys s.task_state) (hs2 : ∀ p ∈ s.task_state, SortedKeys p.2)
    (h : s.request t r n = some (RequestResult.Deadlock, s')) :
    s'.available = s.available ∧
    needOf s' t r = needOf s t r + n ∧
    (∀ t' r', t' ≠ t ∨ r' ≠ r → needOf s' t' r' = needOf s t' r') ∧
    (∀ t' r', allocOf s' t' r' = allocOf s t' r') := by
  obtain ⟨hrec, -⟩ := request_eq h
  subst hrec
  exact record_effects hs1 hs2

/-- C2 witness: the amended claim evaluated at a concrete rejected request. -/
theorem C2_witness :
    (⟨[(0, 0)], [(0, [(0, ⟨1, 1⟩)])]⟩ : BankersAlgorithm).available =
      (⟨[(0, 0)], [(0, [(0, ⟨1, 0⟩)])]⟩ : BankersAlgorithm).available ∧
    needOf ⟨[(0, 0)], [(0, [(0, ⟨1, 1⟩)])]⟩ 0 0 =
      needOf ⟨[(0, 0)], [(0, [(0, ⟨1, 0⟩)])]⟩ 0 0 + 1 ∧
    (∀ t' r', t' ≠ 0 ∨ r' ≠ 0 →
      needOf ⟨[(0, 0)], [(0, [(0, ⟨1, 1⟩)])]⟩ t' r' =
        needOf ⟨[(0, 0)], [(0, [(0, ⟨1, 0⟩)])]⟩ t' r') ∧
    (∀ t' r', allocOf ⟨[(0, 0)], [(0, [(0, ⟨1, 1⟩)])]⟩ t' r' =
      allocOf ⟨[(0, 0)], [(0, [(0, ⟨1, 0⟩)])]⟩ t' r') :=
  C2_amended (by decide) (by decide) (by decide)

/-- C3: the claim (the wrapped comparison agrees with the unwrapped one
whenever the true difference is below half the modulus, `2 ^ 63`) fails on
this code: for true strides `0` and `2 ^ 62` the difference is below half
the modulus yet `StrideImpl::cmp` answers `Greater` while the
infinite-precision comparison answers `Less` (the comparator's window is
`BIG_STRIDE_DIV_2 = 2 ^ 62 - 1`, not half the modulus). -/
theorem C3_cex :
    (2 ^ 62 : Nat) - 0 < 2 ^ 63 ∧
    natCmp 0 (2 ^ 62) = Ordering.lt ∧
    strideCmp (0 % USIZE_MOD) (2 ^ 62 % USIZE_MOD) = Ordering.gt := by decide

/-- C3 (amended): whenever the true (infinite-precision) strides differ by
at most `BIG_STRIDE_DIV_2` — which is what per-step increments of at most
`BIG_STRIDE / 2` guarantee — the wrapped comparison `StrideImpl::cmp` of
the two wrapped counters agrees with the infinite-precision comparison. -/
theorem C3_amended (A B : Nat)
    (h1 : A - B ≤ BIG_STRIDE_DIV_2) (h2 : B - A ≤ BIG_STRIDE_DIV_2) :
    strideCmp (A % USIZE_MOD) (B % USIZE_MOD) = natCmp A B := by
  have hmod : USIZE_MOD = 18446744073709551616 := by norm_num [USIZE_MOD]
  have hdiv : BIG_STRIDE_DIV_2 = 4611686018427387903 := by
    norm_num [BIG_STRIDE_DIV_2, BIG_STRIDE]
  rw [hdiv] at h1 h2
  unfold strideCmp natCmp
  rw [hmod, hdiv]
  split_ifs <;> first | rfl | (exfalso; omega)

/-- C3 witness: the amended claim evaluated across a wrap of the counter. -/
theorem C3_witness :
    strideCmp ((2 ^ 64 - 1) % USIZE_MOD) ((2 ^ 64 + 100) % USIZE_MOD) =
      natCmp (2 ^ 64 - 1) (2 ^ 64 + 100) :=
  C3_amended (2 ^ 64 - 1) (2 ^ 64 + 100) (by decide) (by decide)

/-- C4: the claim (`security_check` returns true or false according to the
simulation, on every state) fails on this code: on a state recording a
need for a resource absent from `available`, `security_check` panics on
the `work[res]` index instead of returning `false`, although the
simulation is stuck. -/
theorem C4_cex :
    BankersAlgorithm.security_check ⟨[], [(0, [(0, ⟨0, 1⟩)])]⟩ = .error () ∧
    ¬ SpecSafe (lookupD ([] : List (Nat × Nat))) [(0, [(0, ⟨0, 1⟩)])] := by
  refine ⟨rfl, ?_⟩
  intro h
  cases h with
  | step t rs hmem hle hrest =>
    simp only [List.mem_singleton, Prod.mk.injEq] at hmem
    obtain ⟨rfl, rfl⟩ := hmem
    have := hle (0, ⟨0, 1⟩) (by simp)
    simp [lookupD, btreeGet] at this

/-- C4 (amended): for every state satisfying the `BTreeMap` key invariant
whose recorded resources are all present in `available`, `security_check`
returns `true` exactly when the specification's simulation can finish all
recorded tasks, and `false` exactly when that simulation gets stuck. -/
theorem C4_amended {s : BankersAlgorithm}
    (hs : SortedKeys s.task_state) (hreg : ResourcesRegistered s) :
    (s.security_check = .ok true ↔ SpecSafe (lookupD s.available) s.task_state) ∧
    (s.security_check = .ok false ↔ ¬ SpecSafe (lookupD s.available) s.task_state) := by
  obtain ⟨b, hb, hiff⟩ := security_check_spec (sortedKeys_nodup hs) hreg
  cases b with
  | true =>
    have hsafe := hiff.1 rfl
    refine ⟨⟨fun _ => hsafe, fun _ => hb⟩, ⟨?_, fun hn => absurd hsafe hn⟩⟩
    intro hfalse
    rw [hb] at hfalse
    simp at hfalse
  | false =>
    have hnsafe : ¬ SpecSafe (lookupD s.available) s.task_state := fun hs' => by
      simpa using hiff.2 hs'
    refine ⟨⟨?_, fun hs' => absurd hs' hnsafe⟩, ⟨fun _ => hnsafe, fun _ => hb⟩⟩
    intro htrue
    rw [hb] at htrue
    simp at htrue

/-- C4 witness: the amended claim evaluated at a concrete registered state. -/
theorem C4_witness :
    ((⟨[(0, 1)], [(0, [(0, ⟨0, 1⟩)])]⟩ : BankersAlgorithm).security_check = .ok true ↔
      SpecSafe (lookupD (⟨[(0, 1)], [(0, [(0, ⟨0, 1⟩)])]⟩ : BankersAlgorithm).available)
        (⟨[(0, 1)], [(0, [(0, ⟨0, 1⟩)])]⟩ : BankersAlgorithm).task_state) ∧
    ((⟨[(0, 1)], [(0, [(0, ⟨0, 1⟩)])]⟩ : BankersAlgorithm).security_check = .ok false ↔
      ¬ SpecSafe (lookupD (⟨[(0, 1)], [(0, [(0, ⟨0, 1⟩)])]⟩ : BankersAlgorithm).available)
        (⟨[(0, 1)], [(0, [(0, ⟨0, 1⟩)])]⟩ : BankersAlgorithm).task_state) :=
  C4_amended (by decide) (by decide)

/-- C5: the claim (the quantity `available[r] + Σ allocation[r]` is
invariant across any sequence of `add_resource`/`acquire`/`release` calls)
fails on this code: a single `add_resource(0, 1)` changes that quantity
from 0 to 1. -/
theorem C5_cex :
    totalOf (BankersAlgorithm.default.add_resource 0 1) 0 = 1 ∧
    totalOf BankersAlgorithm.default 0 = 0 := by decide

/-- C5 (amended): `acquire` and `release` leave `available[r] +
Σ allocation[r]` unchanged for every resource `r` (whenever they do not
abort); `add_resource(r, n)` increases it by exactly `n` for `r` and
leaves it unchanged for every other resource. -/
theorem C5_amended :
    (∀ (s s' : BankersAlgorithm) (t r n : Nat), s.acquire t r n = some s' →
      ∀ ρ, totalOf s' ρ = totalOf s ρ) ∧
    (∀ (s s' : BankersAlgorithm) (t r n : Nat), s.release t r n = some s' →
      ∀ ρ, totalOf s' ρ = totalOf s ρ) ∧
    (∀ (s : BankersAlgorithm) (r n ρ : Nat), SortedKeys s.available →
      totalOf (s.add_resource r n) ρ = totalOf s ρ + (if ρ = r then n else 0)) :=
  ⟨fun _ _ _ _ _ h => acquire_totalOf h,
   fun _ _ _ _ _ h => release_totalOf h,
   fun _ r n ρ hs => add_resource_totalOf hs r n ρ⟩

/-- C5 witness: the amended claim evaluated at a concrete acquire, release
and add_resource. -/
theorem C5_witness :
    totalOf ⟨[(0, 0)], [(0, [(0, ⟨1, 0⟩)])]⟩ 0 =
      totalOf ⟨[(0, 1)], [(0, [(0, ⟨0, 1⟩)])]⟩ 0 ∧
    totalOf ⟨[(0, 1)], [(0, [(0, ⟨0, 0⟩)])]⟩ 0 =
      totalOf ⟨[(0, 0)], [(0, [(0, ⟨1, 0⟩)])]⟩ 0 ∧
    totalOf ((⟨[(0, 1)], [(0, [(0, ⟨0, 1⟩)])]⟩ : BankersAlgorithm).add_resource 0 2) 0 =
      totalOf ⟨[(0, 1)], [(0, [(0, ⟨0, 1⟩)])]⟩ 0 + (if 0 = 0 then 2 else 0) :=
  ⟨C5_amended.1 _ _ 0 0 1 (by decide) 0,
   C5_amended.2.1 _ _ 0 0 1 (by decide) 0,
   C5_amended.2.2 _ 0 2 0 (by decide)⟩

/-- C6: `sys_waitpid` returns `-1` when no child matches `pid` (`-1`
matching any child); `-2` when a matching child exists but none of the
matching children is a Zombie; otherwise it removes the first matching
Zombie child in child-list order, writes its exit code through the output
pointer, and returns its pid. -/
theorem C6_waitpid (children : List Child) (pid : Int)
    (hpids : ∀ c ∈ children, c.pid < 2 ^ 63) :
    ((∀ c ∈ children, pidMatches pid c = false) →
        sysWaitpid children pid = (-1, children, none)) ∧
    ((∃ c ∈ children, pidMatches pid c = true) →
      (∀ c ∈ children, ¬(c.zombie = true ∧ pidMatches pid c = true)) →
        sysWaitpid children pid = (-2, children, none)) ∧
    (∀ i (hi : i < children.length),
      children[i].zombie = true → pidMatches pid children[i] = true →
      (∀ j (hj : j < children.length), j < i →
        ¬(children[j].zombie = true ∧ pidMatches pid children[j] = true)) →
      sysWaitpid children pid =
        ((children[i].pid : Int), children.eraseIdx i, some children[i].exit_code)) := by
  refine ⟨?_, ?_, ?_⟩
  · intro hnone
    have hany : children.any (fun c => pidMatches pid c) = false := by
      rw [List.any_eq_false]
      intro c hc
      simp [hnone c hc]
    simp [sysWaitpid, hany]
  · rintro ⟨c₀, hc₀, hm₀⟩ hnz
    have hany : children.any (fun c => pidMatches pid c) = true :=
      List.any_eq_true.2 ⟨c₀, hc₀, hm₀⟩
    have hfind : findWithIdx (fun c => c.zombie && pidMatches pid c) children 0 = none :=
      findWithIdx_none children 0 (fun c hc => by
        have := hnz c hc
        cases hz : c.zombie <;> cases hm : pidMatches pid c <;> simp_all)
    simp [sysWaitpid, hany, hfind]
  · intro i hi hz hm hmin
    have hany : children.any (fun c => pidMatches pid c) = true :=
      List.any_eq_true.2 ⟨children[i], List.getElem_mem hi, hm⟩
    have hfind := @findWithIdx_first (fun c => c.zombie && pidMatches pid c)
      children i 0 hi (by simp [hz, hm])
      (fun j hj hji => by
        have := hmin j hj hji
        cases hzj : children[j].zombie <;> cases hmj : pidMatches pid children[j] <;>
          simp_all)
    have hcast : isizeOfUsize children[i].pid = (children[i].pid : Int) := by
      have := hpids children[i] (List.getElem_mem hi)
      simp only [isizeOfUsize]
      rw [if_pos this]
    simp [sysWaitpid, hany, hfind, hcast]

/-- C6 witness: a parent with one zombie child of pid 3 and exit code 7;
`waitpid(-1)` reaps it, returns 3 and writes 7. -/
theorem C6_witness : sysWaitpid [⟨3, true, 7⟩] (-1) = (3, [], some 7) := by
  have h := (C6_waitpid [⟨3, true, 7⟩] (-1) (by decide)).2.2 0 (by decide)
    (by decide) (by decide) (fun j hj hji => absurd hji (by omega))
  simpa using h

/-- C7: every priority accepted by the `Priority` constructor (and
representable in its `u32` carrier) yields a per-dispatch stride increment
`BIG_STRIDE / priority` of at least one; the increment never reaches
zero. -/
theorem C7_increment_positive {v : Int} {p : Nat}
    (h : priorityTryFrom v = PriorityTryFrom.ok p) : 1 ≤ stepIncrement p :=
  stepIncrement_ge_one h

/-- C7 witness: the default priority 16. -/
theorem C7_witness : 1 ≤ stepIncrement 16 :=
  @C7_increment_positive 16 16 (by decide)

/-- C8: evaluation of `sys_set_priority` at the failing input `2 ^ 32` and
at in-range inputs. The claim (and §7 of the specification: caller errors
never crash the kernel) requires `set_priority(2 ^ 32)` to return the
priority or `-1`; the code instead panics in
`u32::try_from(value).unwrap()` (the `none` result). In-range inputs
behave as claimed: `pri < 2` yields `-1` and leaves the priority
unchanged, `2 ≤ pri ≤ u32::MAX` returns `pri` and stores it. -/
theorem C8_set_priority_behavior :
    sysSetPriority 4294967296 16 = (none, 16) ∧
    sysSetPriority 1 16 = (some (-1), 16) ∧
    sysSetPriority (-5) 16 = (some (-1), 16) ∧
    sysSetPriority 100 16 = (some 100, 100) := by decide

/-- C9: the first-scheduled timestamp is recorded exactly once — the
dispatch path writes it only while it is still zero and starts the user
timer; any later dispatch leaves the whole accounting record (and the
user-timer field) unchanged. -/
theorem C9_first_run_recorded_once (infos : TaskInfoBlock) (ut t₁ t₁' : Nat)
    (h0 : infos.running_times.first_run_time_us = 0) (hut : ut = 0) (ht : 0 < t₁) :
    ∃ infos',
      updateTaskFirstRunTime infos ut t₁ t₁' = some (infos', t₁') ∧
      infos'.running_times.first_run_time_us = t₁ ∧
      infos'.syscall_times = infos.syscall_times ∧
      infos'.running_times.user_time_us = infos.running_times.user_time_us ∧
      infos'.running_times.kernel_time_us = infos.running_times.kernel_time_us ∧
      (∀ ut₂ t₂ t₂', updateTaskFirstRunTime infos' ut₂ t₂ t₂' = some (infos', ut₂)) := by
  refine ⟨{ infos with
      running_times := { infos.running_times with first_run_time_us := t₁ } },
    ?_, rfl, rfl, rfl, rfl, ?_⟩
  · simp [updateTaskFirstRunTime, h0, hut]
  · intro ut₂ t₂ t₂'
    simp only [updateTaskFirstRunTime]
    rw [if_pos (by simp; omega)]

/-- C9 witness: first dispatch at time 5 records the timestamp; a second
dispatch at time 9 changes nothing. -/
theorem C9_witness :
    ∃ infos',
      updateTaskFirstRunTime ⟨[], ⟨0, 0, 0⟩⟩ 0 5 6 = some (infos', 6) ∧
      infos'.running_times.first_run_time_us = 5 ∧
      infos'.syscall_times = (⟨[], ⟨0, 0, 0⟩⟩ : TaskInfoBlock).syscall_times ∧
      infos'.running_times.user_time_us =
        (⟨[], ⟨0, 0, 0⟩⟩ : TaskInfoBlock).running_times.user_time_us ∧
      infos'.running_times.kernel_time_us =
        (⟨[], ⟨0, 0, 0⟩⟩ : TaskInfoBlock).running_times.kernel_time_us ∧
      (∀ ut₂ t₂ t₂', updateTaskFirstRunTime infos' ut₂ t₂ t₂' = some (infos', ut₂)) :=
  C9_first_run_recorded_once ⟨[], ⟨0, 0, 0⟩⟩ 0 5 6 rfl rfl (by decide)

/-- C10: whenever `BankersAlgorithm::request` returns, its result is either
`Success` or `Deadlock`; the `Wait` variant of `RequestResult` is never
produced by `request`. -/
theorem C10_request_result {s : BankersAlgorithm} {t r n : Nat} {res : RequestResult}
    {s' : BankersAlgorithm} (h : s.request t r n = some (res, s')) :
    res ≠ RequestResult.Wait ∧
    (res = RequestResult.Success ∨ res = RequestResult.Deadlock) := by
  obtain ⟨-, hres⟩ := request_eq h
  refine ⟨?_, hres⟩
  rcases hres with rfl | rfl <;> simp

/-- C10 witness: a concrete request, answered `Success`. -/
theorem C10_witness :
    RequestResult.Success ≠ RequestResult.Wait ∧
    (RequestResult.Success = RequestResult.Success ∨
      RequestResult.Success = RequestResult.Deadlock) :=
  @C10_request_result (BankersAlgorithm.default.add_resource 0 1) 0 0 1
    RequestResult.Success ⟨[(0, 1)], [(0, [(0, ⟨0, 1⟩)])]⟩ (by decide)
